import Mathlib

/-!
Verification of the survey-to-ticket pipeline of `nixos-advisory-survey`.

Strings are modelled as `List Char`; the relevant characters for the
name/version split (hyphen, decimal digits) are ASCII, so byte positions in
the Rust source correspond to character positions here.

Sections:
* package identifier model (src/package.rs)
* ticket synthesis model (spec §4.3; ticket.rs is not part of the given sources)
* issue dispatcher model (src/main.rs: create, issues, run, main)
-/

namespace Survey

/-- Model of `Package` (src/package.rs lines 10–15): the full derivation name
together with the index of the first character of the version part. The Rust
struct derives Eq/Ord field-wise in declaration order (name, then v_idx). -/
structure Package where
  name : List Char
  v_idx : Nat
deriving DecidableEq, Repr

/-- Model of the derived `Default` for `Package`: empty name, v_idx = 0. -/
def Package.default : Package := ⟨[], 0⟩

/-- Model of `Package::new` (src/package.rs lines 19–27): concatenates
pname, a hyphen and version; v_idx is pname.len() + 1. -/
def Package.new (pname version : List Char) : Package :=
  ⟨pname ++ '-' :: version, pname.length + 1⟩

/-- Model of `Package::pname` (src/package.rs lines 29–31): the slice
`name[..v_idx - 1]`. Rust subtraction on usize and slicing panic when the
index is out of range; `pnameChecked` returns `none` exactly in the cases
where the Rust expression panics (v_idx = 0 underflows, or the end index
exceeds the length). -/
def Package.pnameChecked (p : Package) : Option (List Char) :=
  if 1 ≤ p.v_idx ∧ p.v_idx - 1 ≤ p.name.length then
    some (p.name.take (p.v_idx - 1))
  else
    none

/-- The slice `name[..v_idx - 1]` in the non-panicking case. -/
def Package.pname (p : Package) : List Char := p.name.take (p.v_idx - 1)

/-- Model of `Package::as_str` / Display: the full identifier string. -/
def Package.as_str (p : Package) : List Char := p.name

/-- Model of the test-only `Package::version`: the slice `name[v_idx..]`. -/
def Package.version (p : Package) : List Char := p.name.drop p.v_idx

/-- The invariant under which `pname` is panic-free: v_idx is at least 1
(no underflow) and the end index v_idx - 1 is at most name.len(). -/
def Package.Inv (p : Package) : Prop :=
  1 ≤ p.v_idx ∧ p.v_idx ≤ p.name.length + 1

instance : DecidablePred Package.Inv := fun p => by
  unfold Package.Inv; infer_instance

/-- The regex `-[0-9]` (src/package.rs line 51) applied by `find`: position
of the first hyphen that is immediately followed by a decimal digit. -/
def findSplit : List Char → Option Nat
  | [] => none
  | [_] => none
  | a :: b :: rest =>
    if a = '-' ∧ b.isDigit then some 0
    else (findSplit (b :: rest)).map (· + 1)

/-- Position i of a string carries a hyphen immediately followed by a
decimal digit. -/
def hdAt (s : List Char) (i : Nat) : Prop :=
  i + 1 < s.length ∧ s.getD i ' ' = '-' ∧ (s.getD (i + 1) ' ').isDigit

instance (s : List Char) (i : Nat) : Decidable (hdAt s i) := by
  unfold hdAt; infer_instance

/-- Model of `PackageErr::Version` (src/package.rs lines 54–58): the error
carries the offending raw derivation name. -/
structure PackageErr where
  name : List Char
deriving DecidableEq, Repr

/-- Model of `FromStr for Package` (src/package.rs lines 60–73): on the first
`-[0-9]` match at position m.start(), the package keeps the whole input as
name and sets v_idx = m.start() + 1; with no match it fails, surfacing the
raw string. -/
def Package.from_str (s : List Char) : Except PackageErr Package :=
  match findSplit s with
  | some i => .ok ⟨s, i + 1⟩
  | none => .error ⟨s⟩

/-- Derived Ord on the Rust struct: lexicographic on (name, v_idx), where
the name itself is compared lexicographically byte-wise. -/
def Package.lt (p q : Package) : Prop :=
  p.name < q.name ∨ (p.name = q.name ∧ p.v_idx < q.v_idx)

instance : DecidableRel Package.lt := fun p q => by
  unfold Package.lt; infer_instance

/-- Modelled from the spec: `Ticket` (spec §3); ticket.rs is not among the
given sources. A ticket carries the iteration number, the package base name
(which also yields the derived file/issue name), and the accumulated branch,
CVE and maintainer sets. -/
structure Ticket where
  iteration : Nat
  pname : List Char
  branches : List String
  cves : List String
  maintainers : List String
deriving DecidableEq, Repr

/-- Modelled from the spec: the derived file name of a ticket (spec §3, §6:
one marker file per filed ticket, named by the ticket derived file name,
typically the package base name). The identifying name used in warnings and
error contexts is modelled by the same string. -/
def Ticket.fileName (t : Ticket) : List Char := t.pname

deriving instance DecidableEq for Except

/-- Model of `create` (src/main.rs lines 113–126). The iteration directory
contents are modelled by `fs`, the list of marker file names present; the
tracker is a function from a ticket to the created ticket or an error
message. The output records the returned result, the directory contents
afterwards, whether the tracker issue-creation operation was invoked, and
whether the skip warning was emitted. -/
structure CreateOut where
  result : Except (List Char × String) Unit
  fs : List (List Char)
  trackerCalled : Bool
  warned : Bool
deriving DecidableEq, Repr

/-- Model of `create` (src/main.rs lines 113–126): if the marker file exists,
warn and return Ok without touching the tracker or the filesystem; otherwise
invoke the tracker and, only on success, write the marker file (named after
the original ticket). On tracker failure the error is wrapped with the
ticket name as context. -/
def create (tracker : Ticket → Except String Ticket) (tkt : Ticket)
    (fs : List (List Char)) : CreateOut :=
  let f := tkt.fileName
  if f ∈ fs then
    ⟨.ok (), fs, false, true⟩
  else
    match tracker tkt with
    | .error e => ⟨.error (tkt.pname, e), fs, true, false⟩
    | .ok _ => ⟨.ok (), f :: fs, true, false⟩

/-- Output of the dispatcher loop: final result, final directory contents,
the tickets whose `create` operation was actually awaited (in order), and
the tickets for which the tracker issue creation was invoked. -/
structure DispatchOut where
  result : Except (List Char × String) Unit
  fs : List (List Char)
  attempted : List (List Char)
  calls : List (List Char)
deriving DecidableEq, Repr

/-- Model of `issues` (src/main.rs lines 128–138): the `create` futures are
built lazily and then awaited one by one in order; the `?` on each await
returns the first error immediately, dropping the later futures unawaited,
so execution is sequential with early abort. -/
def issues (tracker : Ticket → Except String Ticket) :
    List Ticket → List (List Char) → DispatchOut
  | [], fs => ⟨.ok (), fs, [], []⟩
  | t :: rest, fs =>
    let c := create tracker t fs
    match c.result with
    | .error e =>
      ⟨.error e, c.fs, [t.fileName], if c.trackerCalled then [t.fileName] else []⟩
    | .ok _ =>
      let r := issues tracker rest c.fs
      ⟨r.result, r.fs, t.fileName :: r.attempted,
       (if c.trackerCalled then [t.fileName] else []) ++ r.calls⟩

/-- Model of `main` (src/main.rs lines 174–186): exit code 1 when `run`
returned an error, 0 otherwise. -/
def mainExit (r : Except (List Char × String) Unit) : Nat :=
  match r with
  | .ok _ => 0
  | .error _ => 1

/-- GITHUB_TOKEN resolution by the option parser (src/main.rs lines 77–81):
the command line option takes precedence, otherwise the environment
variable. -/
def resolveToken (cli envVar : Option String) : Option String :=
  match cli with
  | some t => some t
  | none => envVar

/-- Which pipeline phases of `run` were begun. -/
structure RunSteps where
  scanned : Bool
  loaded : Bool
  synthesized : Bool
  dispatched : Bool
deriving DecidableEq, Repr

/-- Outcome of `run`: the error (if any) and the phases begun. -/
structure RunOut where
  err : Option String
  steps : RunSteps
deriving DecidableEq, Repr

/-- Model of the control flow of `run` (src/main.rs lines 140–172): branch
resolution first, then tracker selection — which bails out when a repository
is configured but no token resolves from option or environment — then scan
or load depending on no_run, then ticket synthesis and dispatch. The
outcomes of branch resolution, scan/load and dispatch are abstracted into
the Boolean parameters `branchesOk`, `scanOk`, `dispatchOk`. -/
def run (repo tokenCli tokenEnv : Option String)
    (branchesOk scanOk dispatchOk noRun : Bool) : RunOut :=
  if branchesOk = false then
    ⟨some "branch resolution failed", ⟨false, false, false, false⟩⟩
  else
    match repo, resolveToken tokenCli tokenEnv with
    | some _, none =>
      ⟨some "No Github access token given either as option or via the GITHUB_TOKEN environment variable",
       ⟨false, false, false, false⟩⟩
    | _, _ =>
      if scanOk = false then
        ⟨some "scan failed", ⟨!noRun, noRun, false, false⟩⟩
      else if dispatchOk = false then
        ⟨some "ticket filing failed", ⟨!noRun, noRun, true, true⟩⟩
      else
        ⟨none, ⟨!noRun, noRun, true, true⟩⟩

/-- Modelled from the spec: one scanner finding (spec §3 SecurityFinding):
the affected package and the advisory identifiers implicated; derivation
paths play no role in ticket synthesis and are omitted. -/
structure Finding where
  pkg : Package
  cves : List String
deriving DecidableEq, Repr

/-- Modelled from the spec: maintainer lookup in the MaintainerMap (spec §3,
§4.2): branch name to package to maintainer handles; absent entries mean the
empty set. -/
def maintFor (m : List (String × List (Package × List String)))
    (branch : String) (pkg : Package) : List String :=
  match m.find? (fun be => decide (be.1 = branch)) with
  | none => []
  | some be =>
    match be.2.find? (fun pe => decide (pe.1 = pkg)) with
    | none => []
    | some pe => pe.2

/-- Insert a string into a set represented as a duplicate-free list (spec
§4.3: the accumulator fields are sets). -/
def addElem (x : String) (xs : List String) : List String :=
  if x ∈ xs then xs else xs ++ [x]

/-- Union a list of new elements into a set accumulator. -/
def unionStr (xs news : List String) : List String :=
  news.foldl (fun acc c => addElem c acc) xs

/-- Modelled from the spec: the per-baseName accumulator of ticket synthesis
(spec §4.3 step 1): affected branches, CVE ids and maintainer handles. -/
structure Acc where
  branches : List String
  cves : List String
  maints : List String
deriving DecidableEq, Repr

/-- The accumulator a fresh base name starts from. -/
def Acc.empty : Acc := ⟨[], [], []⟩

/-- Spec §4.3 step 2: add the branch name and union in the CVE ids and the
maintainer handles of one finding. -/
def Acc.update (branch : String) (cves maints : List String) (a : Acc) : Acc :=
  ⟨addElem branch a.branches, unionStr a.cves cves, unionStr a.maints maints⟩

/-- Modelled from the spec: look up or create the accumulator for a base
name and apply one finding to it (spec §4.3 step 2). The baseName-to-
accumulator mapping is kept sorted by key, so that emission (step 3) is
ordered by baseName ascending. -/
def insertAcc (key : List Char) (branch : String) (cves maints : List String) :
    List (List Char × Acc) → List (List Char × Acc)
  | [] => [(key, Acc.update branch cves maints Acc.empty)]
  | (k, a) :: rest =>
    if key = k then (k, Acc.update branch cves maints a) :: rest
    else if key < k then
      (key, Acc.update branch cves maints Acc.empty) :: (k, a) :: rest
    else (k, a) :: insertAcc key branch cves maints rest

/-- One synthesis step for a (branch, finding) pair. -/
def synthStep (maint : List (String × List (Package × List String)))
    (m : List (List Char × Acc)) (it : String × Finding) :
    List (List Char × Acc) :=
  insertAcc it.2.pkg.pname it.1 it.2.cves (maintFor maint it.1 it.2.pkg) m

/-- Modelled from the spec: ticket synthesis (spec §4.3; called
`ticket_list` at src/main.rs line 159; ticket.rs is not among the given
sources). Iterates branches in caller-supplied order and, within each
branch, the findings in scan order, accumulating per-baseName branch, CVE
and maintainer sets; emits one ticket per accumulator ordered by baseName
ascending, each carrying the iteration number. -/
def ticket_list (iteration : Nat) (sec : List (String × List Finding))
    (maint : List (String × List (Package × List String))) : List Ticket :=
  (sec.foldl (fun m bf => bf.2.foldl (fun m f =>
      insertAcc f.pkg.pname bf.1 f.cves (maintFor maint bf.1 f.pkg) m) m) []).map
    (fun ka => ⟨iteration, ka.1, ka.2.branches, ka.2.cves, ka.2.maints⟩)

/-- All (branch, finding) pairs of a branch security map, in processing
order: branches in caller-supplied order, findings in scan order. -/
def items (sec : List (String × List Finding)) : List (String × Finding) :=
  sec.flatMap (fun bf => bf.2.map (fun f => (bf.1, f)))

/-- Correctness statement for one accumulator after processing the
(branch, finding) pairs in `done`: its branch, CVE and maintainer sets are
exactly the unions contributed by the findings with this base name. -/
def AccOk (maint : List (String × List (Package × List String)))
    (done : List (String × Finding)) (k : List Char) (a : Acc) : Prop :=
  (∀ b, b ∈ a.branches ↔ ∃ f : Finding, (b, f) ∈ done ∧ f.pkg.pname = k) ∧
  (∀ c, c ∈ a.cves ↔
    ∃ bf : String × Finding, bf ∈ done ∧ bf.2.pkg.pname = k ∧ c ∈ bf.2.cves) ∧
  (∀ x, x ∈ a.maints ↔
    ∃ bf : String × Finding, bf ∈ done ∧ bf.2.pkg.pname = k ∧
      x ∈ maintFor maint bf.1 bf.2.pkg)

/-- Invariant of the synthesis fold: the accumulator map is key-sorted, its
keys are exactly the base names seen so far, and every accumulator is
correct for the pairs processed so far. -/
def MapOk (maint : List (String × List (Package × List String)))
    (done : List (String × Finding)) (m : List (List Char × Acc)) : Prop :=
  (m.map Prod.fst).Sorted (· < ·) ∧
  (∀ k, k ∈ m.map Prod.fst ↔ ∃ bf ∈ done, bf.2.pkg.pname = k) ∧
  (∀ ka ∈ m, AccOk maint done ka.1 ka.2)

lemma hdAt_zero (a b : Char) (rest : List Char) :
    hdAt (a :: b :: rest) 0 ↔ a = '-' ∧ b.isDigit := by
  simp [hdAt, List.getD]

lemma hdAt_succ (a : Char) (l : List Char) (j : Nat) :
    hdAt (a :: l) (j + 1) ↔ hdAt l j := by
  simp only [hdAt, List.getD, List.getElem?_cons_succ, List.length_cons]
  constructor
  · rintro ⟨h1, h2, h3⟩; exact ⟨by omega, h2, h3⟩
  · rintro ⟨h1, h2, h3⟩; exact ⟨by omega, h2, h3⟩

lemma hdAt_length {s : List Char} {i : Nat} (h : hdAt s i) : i + 1 < s.length :=
  h.1

lemma findSplit_eq_some_iff (s : List Char) (i : Nat) :
    findSplit s = some i ↔ (hdAt s i ∧ ∀ j < i, ¬ hdAt s j) := by
  induction s generalizing i with
  | nil => simp [findSplit, hdAt]
  | cons a l ih =>
    cases l with
    | nil =>
      simp only [findSplit]
      constructor
      · intro h; cases h
      · rintro ⟨⟨h1, _⟩, _⟩
        simp only [List.length_cons, List.length_nil] at h1; omega
    | cons b rest =>
      by_cases hc : a = '-' ∧ b.isDigit
      · simp only [findSplit, if_pos hc]
        constructor
        · intro h
          have hi : i = 0 := by
            cases h; rfl
          subst hi
          exact ⟨(hdAt_zero a b rest).mpr hc, fun j hj => absurd hj (Nat.not_lt_zero j)⟩
        · rintro ⟨_, h2⟩
          rcases Nat.eq_zero_or_pos i with hi | hi
          · subst hi; rfl
          · exact absurd ((hdAt_zero a b rest).mpr hc) (h2 0 hi)
      · have h0 : ¬ hdAt (a :: b :: rest) 0 := fun h => hc ((hdAt_zero a b rest).mp h)
        simp only [findSplit, if_neg hc]
        cases i with
        | zero =>
          constructor
          · intro h
            rcases Option.map_eq_some'.mp h with ⟨i', _, hi'⟩
            omega
          · rintro ⟨h1, _⟩; exact absurd h1 h0
        | succ i' =>
          constructor
          · intro h
            rcases Option.map_eq_some'.mp h with ⟨i'', hfs, hi''⟩
            have : i'' = i' := by omega
            subst this
            rcases (ih i'').mp hfs with ⟨h1, h2⟩
            refine ⟨(hdAt_succ a (b :: rest) i'').mpr h1, ?_⟩
            intro j hj
            cases j with
            | zero => exact h0
            | succ j' =>
              intro hcon
              exact h2 j' (by omega) ((hdAt_succ a (b :: rest) j').mp hcon)
          · rintro ⟨h1, h2⟩
            have hfs : findSplit (b :: rest) = some i' := by
              refine (ih i').mpr ⟨(hdAt_succ a (b :: rest) i').mp h1, ?_⟩
              intro j hj hcon
              exact h2 (j + 1) (by omega) ((hdAt_succ a (b :: rest) j).mpr hcon)
            rw [hfs]; rfl

lemma findSplit_eq_none_iff (s : List Char) :
    findSplit s = none ↔ ∀ j, ¬ hdAt s j := by
  constructor
  · intro h j hj
    by_cases hex : ∃ k, hdAt s k
    · have hmin := Nat.find_spec hex
      have hlt : ∀ m < Nat.find hex, ¬ hdAt s m := fun m hm => Nat.find_min hex hm
      have : findSplit s = some (Nat.find hex) :=
        (findSplit_eq_some_iff s (Nat.find hex)).mpr ⟨hmin, hlt⟩
      rw [h] at this; cases this
    · exact hex ⟨j, hj⟩
  · intro h
    cases hfs : findSplit s with
    | none => rfl
    | some i =>
      exact absurd ((findSplit_eq_some_iff s i).mp hfs).1 (h i)

lemma forall_not_hdAt_of_bounded {s : List Char}
    (h : ∀ j < s.length, ¬ hdAt s j) : ∀ j, ¬ hdAt s j := by
  intro j hj
  exact h j (by have := hdAt_length hj; omega) hj

lemma from_str_ok_elim {s : List Char} {p : Package}
    (hp : Package.from_str s = .ok p) :
    ∃ i, findSplit s = some i ∧ p = ⟨s, i + 1⟩ := by
  unfold Package.from_str at hp
  cases hfs : findSplit s with
  | none => rw [hfs] at hp; cases hp
  | some i =>
    rw [hfs] at hp
    exact ⟨i, rfl, (Except.ok.inj hp).symm⟩

/-- C6: for every string whose first hyphen-immediately-followed-by-digit
occurrence starts at position i, parsing succeeds and yields the package
whose full name is the whole input, whose baseName is the prefix of length i
and whose version is the suffix starting at position i + 1. -/
theorem c6_parse_first_boundary (s : List Char) (i : Nat)
    (h1 : hdAt s i) (h2 : ∀ j < i, ¬ hdAt s j) :
    Package.from_str s = .ok ⟨s, i + 1⟩ ∧
    (⟨s, i + 1⟩ : Package).as_str = s ∧
    (⟨s, i + 1⟩ : Package).pname = s.take i ∧
    (⟨s, i + 1⟩ : Package).version = s.drop (i + 1) := by
  have hfs : findSplit s = some i := (findSplit_eq_some_iff s i).mpr ⟨h1, h2⟩
  refine ⟨?_, rfl, ?_, rfl⟩
  · unfold Package.from_str; rw [hfs]
  · simp [Package.pname]

/-- Witness for C6 at the identifier openssl-1.0.2d, whose first
hyphen-digit occurrence starts at position 7. -/
theorem c6_witness :
    Package.from_str "openssl-1.0.2d".toList = .ok ⟨"openssl-1.0.2d".toList, 8⟩ ∧
    (⟨"openssl-1.0.2d".toList, 8⟩ : Package).pname = "openssl".toList := by
  have h := c6_parse_first_boundary "openssl-1.0.2d".toList 7 (by decide) (by decide)
  exact ⟨h.1, h.2.2.1.trans (by decide)⟩

/-- C7 counterexample: the base name "a" contains no hyphen-digit pattern,
yet constructing from ("a", "b") yields "a-b", which does not parse — the
claimed round trip fails because the version does not start with a digit. -/
theorem c7_counterexample :
    (∀ j < (['a'] : List Char).length, ¬ hdAt ['a'] j) ∧
    (Package.new ['a'] ['b']).name = ['a', '-', 'b'] ∧
    Package.from_str (Package.new ['a'] ['b']).name = .error ⟨['a', '-', 'b']⟩ := by
  refine ⟨by decide, by decide, by decide⟩

/-- C7 (amended): for every baseName containing no hyphen-digit pattern and
every version that starts with a decimal digit, construct-then-parse
round-trips to the same baseName and version. -/
theorem c7_amended_roundtrip (b : List Char) (c : Char) (v : List Char)
    (hb : ∀ j < b.length, ¬ hdAt b j) (hc : c.isDigit) :
    Package.from_str (Package.new b (c :: v)).name = .ok (Package.new b (c :: v)) ∧
    (Package.new b (c :: v)).pname = b ∧
    (Package.new b (c :: v)).version = c :: v := by
  have hsplit : findSplit (b ++ '-' :: c :: v) = some b.length := by
    refine (findSplit_eq_some_iff _ _).mpr ⟨⟨?_, ?_, ?_⟩, ?_⟩
    · simp only [List.length_append, List.length_cons]; omega
    · simp [List.getD, List.getElem?_append_right (Nat.le_refl b.length)]
    · simpa [List.getD,
        List.getElem?_append_right (by omega : b.length ≤ b.length + 1),
        Nat.add_sub_cancel_left] using hc
    · intro j hj hcon
      rcases hcon with ⟨hlen, hch, hdig⟩
      simp only [List.getD, List.get?_eq_getElem?,
        List.getElem?_append_left hj] at hch
      by_cases hj1 : j + 1 < b.length
      · simp only [List.getD, List.get?_eq_getElem?,
          List.getElem?_append_left hj1] at hdig
        exact hb j hj ⟨hj1, by simpa [hdAt, List.getD] using hch,
          by simpa [List.getD] using hdig⟩
      · have hj1e : j + 1 = b.length := by omega
        rw [hj1e] at hdig
        simp only [List.getD, List.get?_eq_getElem?,
          List.getElem?_append_right (Nat.le_refl b.length)] at hdig
        simp at hdig
  refine ⟨?_, ?_, ?_⟩
  · show Package.from_str (b ++ '-' :: c :: v) = _
    unfold Package.from_str
    rw [hsplit]
    rfl
  · show (b ++ '-' :: c :: v).take (b.length + 1 - 1) = b
    simp [List.take_left]
  · show (b ++ '-' :: c :: v).drop (b.length + 1) = c :: v
    rw [show b.length + 1 = b.length + 1 from rfl, List.drop_append]
    rfl

/-- Witness for the amended C7 at baseName linux-kernel (hyphen not followed
by a digit) and version 5.2. -/
theorem c7_witness :
    Package.from_str (Package.new "linux-kernel".toList ('5' :: ".2".toList)).name =
      .ok (Package.new "linux-kernel".toList ('5' :: ".2".toList)) ∧
    (Package.new "linux-kernel".toList ('5' :: ".2".toList)).pname = "linux-kernel".toList := by
  have h := c7_amended_roundtrip "linux-kernel".toList '5' ".2".toList
    (by decide) (by decide)
  exact ⟨h.1, h.2.1⟩

/-- C8: parsing a string with no hyphen-immediately-followed-by-digit
occurrence fails with the version-boundary error, carrying the offending raw
string. -/
theorem c8_no_boundary_error (s : List Char)
    (h : ∀ j < s.length, ¬ hdAt s j) :
    Package.from_str s = .error ⟨s⟩ := by
  have hfs : findSplit s = none :=
    (findSplit_eq_none_iff s).mpr (forall_not_hdAt_of_bounded h)
  unfold Package.from_str
  rw [hfs]

/-- Witness for C8 at the digit-free identifier exiv2. -/
theorem c8_witness :
    Package.from_str "exiv2".toList = .error ⟨"exiv2".toList⟩ :=
  c8_no_boundary_error "exiv2".toList (by decide)

/-- C9 counterexample: construct("a", "b-c") and construct("a-b", "c") have
the same full identifier string a-b-c but are unequal (their version indices
differ), and the former is strictly below the latter although their strings
are not strictly ordered — so neither the equality nor the ordering claim
holds for arbitrarily constructed packages. -/
theorem c9_counterexample :
    (Package.new ['a'] ['b', '-', 'c']).as_str =
      (Package.new ['a', '-', 'b'] ['c']).as_str ∧
    Package.new ['a'] ['b', '-', 'c'] ≠ Package.new ['a', '-', 'b'] ['c'] ∧
    Package.lt (Package.new ['a'] ['b', '-', 'c']) (Package.new ['a', '-', 'b'] ['c']) ∧
    ¬ (Package.new ['a'] ['b', '-', 'c']).as_str <
      (Package.new ['a', '-', 'b'] ['c']).as_str := by
  refine ⟨by decide, by decide, by decide, by decide⟩

/-- C9 (amended): restricted to packages produced by parsing, equality
coincides with equality of the full identifier strings and the order
coincides with lexicographic order on the full identifier strings (the
version index is determined by the string, so the field-wise derived
equality and order collapse to the string ones). -/
theorem c9_amended_parse_order (s t : List Char) (p q : Package)
    (hp : Package.from_str s = .ok p) (hq : Package.from_str t = .ok q) :
    (p = q ↔ p.as_str = q.as_str) ∧
    (Package.lt p q ↔ p.as_str < q.as_str) := by
  rcases from_str_ok_elim hp with ⟨i, hfi, rfl⟩
  rcases from_str_ok_elim hq with ⟨i', hfi', rfl⟩
  constructor
  · constructor
    · intro h; rw [h]
    · intro h
      have hst : s = t := h
      subst hst
      rw [hfi] at hfi'
      cases hfi'
      rfl
  · constructor
    · intro h
      rcases h with h | ⟨he, hv⟩
      · exact h
      · have hst : s = t := he
        subst hst
        rw [hfi] at hfi'
        cases hfi'
        exact absurd hv (lt_irrefl _)
    · intro h
      exact Or.inl h

/-- Witness for the amended C9 at the parsed identifiers a-1 and b-2. -/
theorem c9_witness :
    Package.lt ⟨"a-1".toList, 2⟩ ⟨"b-2".toList, 2⟩ ↔
      (⟨"a-1".toList, 2⟩ : Package).as_str < (⟨"b-2".toList, 2⟩ : Package).as_str := by
  have h := c9_amended_parse_order "a-1".toList "b-2".toList
    ⟨"a-1".toList, 2⟩ ⟨"b-2".toList, 2⟩ (by decide) (by decide)
  exact h.2

/-- C10: every package produced by parse or construct satisfies the
invariant 1 ≤ v_idx ≤ name.len() + 1; under the invariant the pname slice
name[..v_idx - 1] is in bounds and panic-free; the derived Default value
(empty name, v_idx = 0) violates the invariant and its pname slice is the
panicking case (the index subtraction underflows). -/
theorem c10_pname_invariant :
    (∀ (s : List Char) (p : Package), Package.from_str s = .ok p → p.Inv) ∧
    (∀ b v, (Package.new b v).Inv) ∧
    (∀ p : Package, p.Inv → p.pnameChecked = some p.pname) ∧
    ¬ Package.default.Inv ∧
    Package.default.pnameChecked = none := by
  refine ⟨?_, ?_, ?_, ?_, ?_⟩
  · intro s p hp
    rcases from_str_ok_elim hp with ⟨i, hfi, rfl⟩
    have hlen : i + 1 < s.length :=
      hdAt_length ((findSplit_eq_some_iff s i).mp hfi).1
    constructor
    · show 1 ≤ i + 1
      omega
    · show i + 1 ≤ s.length + 1
      omega
  · intro b v
    constructor
    · show 1 ≤ b.length + 1
      omega
    · show b.length + 1 ≤ (b ++ '-' :: v).length + 1
      simp [List.length_append]
  · intro p hp
    unfold Package.pnameChecked
    rw [if_pos ⟨hp.1, by have h2 := hp.2; omega⟩]
    rfl
  · intro h
    exact absurd h.1 (by decide)
  · decide

/-- Witness for C10: a parsed package and a constructed package satisfying
the invariant. -/
theorem c10_witness :
    (⟨"a-1".toList, 2⟩ : Package).Inv ∧ (Package.new ['x'] ['1']).Inv :=
  ⟨c10_pname_invariant.1 "a-1".toList ⟨"a-1".toList, 2⟩ (by decide),
   c10_pname_invariant.2.1 ['x'] ['1']⟩

/-- C1: for every tracker, ticket and iteration-directory content, when the
marker file named after the ticket already exists, `create` returns success
after only emitting the skip warning: the tracker issue-creation operation
is not invoked and nothing is written. -/
theorem c1_skip_when_marker_exists (tracker : Ticket → Except String Ticket)
    (tkt : Ticket) (fs : List (List Char)) (h : tkt.fileName ∈ fs) :
    create tracker tkt fs = ⟨.ok (), fs, false, true⟩ := by
  simp [create, h]

/-- Witness for C1 with a marker for the ticket already on disk. -/
theorem c1_witness :
    create (fun t => .ok t) ⟨0, ['a'], [], [], []⟩ [['a']] =
      ⟨.ok (), [['a']], false, true⟩ :=
  c1_skip_when_marker_exists (fun t => .ok t) ⟨0, ['a'], [], [], []⟩ [['a']]
    (by decide)

/-- C4: for every ticket whose filing actually reaches the tracker (no
marker present), the tracker is invoked, and the marker file is written if
and only if the tracker reported success; on failure the directory contents
are unchanged. -/
theorem c4_marker_iff_tracker_success (tracker : Ticket → Except String Ticket)
    (tkt : Ticket) (fs : List (List Char)) (h : tkt.fileName ∉ fs) :
    (create tracker tkt fs).trackerCalled = true ∧
    (∀ t, tracker tkt = .ok t → (create tracker tkt fs).fs = tkt.fileName :: fs) ∧
    (∀ e, tracker tkt = .error e → (create tracker tkt fs).fs = fs) ∧
    (tkt.fileName ∈ (create tracker tkt fs).fs ↔ ∃ t, tracker tkt = .ok t) := by
  cases htr : tracker tkt with
  | error e =>
    refine ⟨by simp [create, h, htr], by simp [htr], by simp [create, h, htr], ?_⟩
    simp [create, h, htr]
  | ok t' =>
    refine ⟨by simp [create, h, htr], by simp [create, h, htr], by simp [htr], ?_⟩
    simp [create, h, htr]

/-- Witness for C4 with an always-succeeding tracker and an empty iteration
directory. -/
theorem c4_witness :
    (create (fun t => .ok t) ⟨0, ['a'], [], [], []⟩ []).fs = [['a']] ∧
    (create (fun t => .ok t) ⟨0, ['a'], [], [], []⟩ []).trackerCalled = true := by
  have h := c4_marker_iff_tracker_success (fun t => .ok t) ⟨0, ['a'], [], [], []⟩ []
    (by decide)
  exact ⟨h.2.1 ⟨0, ['a'], [], [], []⟩ rfl, h.1⟩

/-- C3 counterexample: with a tracker failing on ticket a and succeeding on
ticket b, dispatching [a, b] stops at the failure of a: ticket b is never
attempted and the tracker is never invoked for it, although it would have
succeeded — refuting the claim that every remaining ticket is still
attempted after one failure. -/
theorem c3_counterexample :
    (issues (fun t => if t.pname = ['a'] then .error "boom" else .ok t)
        [⟨1, ['a'], [], [], []⟩, ⟨1, ['b'], [], [], []⟩] []).result =
      .error (['a'], "boom") ∧
    (issues (fun t => if t.pname = ['a'] then .error "boom" else .ok t)
        [⟨1, ['a'], [], [], []⟩, ⟨1, ['b'], [], [], []⟩] []).attempted = [['a']] ∧
    ['b'] ∉ (issues (fun t => if t.pname = ['a'] then .error "boom" else .ok t)
        [⟨1, ['a'], [], [], []⟩, ⟨1, ['b'], [], [], []⟩] []).attempted ∧
    (issues (fun t => if t.pname = ['a'] then .error "boom" else .ok t)
        [⟨1, ['a'], [], [], []⟩, ⟨1, ['b'], [], [], []⟩] []).calls = [['a']] ∧
    (fun t : Ticket => if t.pname = ['a'] then .error "boom" else Except.ok t)
        ⟨1, ['b'], [], [], []⟩ = .ok ⟨1, ['b'], [], [], []⟩ := by
  refine ⟨by decide, by decide, by decide, by decide, by decide⟩

/-- C3 (amended): if issue creation fails for a ticket, the dispatcher does
not attempt the remaining tickets: the awaiting loop returns that first
error immediately, the tickets after the failing one are neither attempted
nor submitted, and the run as a whole exits non-zero reporting that error;
when a ticket succeeds the loop continues, so the error eventually reported
is the first one encountered. -/
theorem c3_amended_abort_on_first_error (tracker : Ticket → Except String Ticket)
    (t : Ticket) (rest : List Ticket) (fs : List (List Char)) :
    (∀ e, (create tracker t fs).result = .error e →
      issues tracker (t :: rest) fs =
        ⟨.error e, (create tracker t fs).fs, [t.fileName],
         if (create tracker t fs).trackerCalled then [t.fileName] else []⟩ ∧
      mainExit (issues tracker (t :: rest) fs).result = 1) ∧
    ((create tracker t fs).result = .ok () →
      (issues tracker (t :: rest) fs).result =
        (issues tracker rest (create tracker t fs).fs).result) := by
  constructor
  · intro e he
    have hiss : issues tracker (t :: rest) fs =
        ⟨.error e, (create tracker t fs).fs, [t.fileName],
         if (create tracker t fs).trackerCalled then [t.fileName] else []⟩ := by
      simp only [issues]
      rw [he]
    exact ⟨hiss, by rw [hiss]; rfl⟩
  · intro he
    simp only [issues]
    rw [he]

/-- Witness for the amended C3 with an always-failing tracker and one
ticket. -/
theorem c3_witness :
    issues (fun _ : Ticket => (Except.error "x" : Except String Ticket))
        [⟨1, ['a'], [], [], []⟩] [] =
      ⟨.error (['a'], "x"), [], [['a']], [['a']]⟩ ∧
    mainExit (issues (fun _ : Ticket => (Except.error "x" : Except String Ticket))
        [⟨1, ['a'], [], [], []⟩] []).result = 1 := by
  have h := (c3_amended_abort_on_first_error
      (fun _ : Ticket => (Except.error "x" : Except String Ticket))
      ⟨1, ['a'], [], [], []⟩ [] []).1 (['a'], "x") (by decide)
  exact ⟨h.1.trans (by decide), h.2⟩

/-- C5: configuring a tracker repository while no credential resolves from
the option or the environment fails with the fatal configuration error, and
no scan, load, ticket synthesis or ticket-dispatch phase is begun (branch
resolution precedes the check in the source and is taken as successful
here). -/
theorem c5_repo_without_token_fails_fast (repo : String)
    (scanOk dispatchOk noRun : Bool) :
    run (some repo) none none true scanOk dispatchOk noRun =
      ⟨some "No Github access token given either as option or via the GITHUB_TOKEN environment variable",
       ⟨false, false, false, false⟩⟩ := by
  rfl

lemma mem_addElem (x y : String) (xs : List String) :
    x ∈ addElem y xs ↔ x ∈ xs ∨ x = y := by
  unfold addElem
  by_cases h : y ∈ xs
  · rw [if_pos h]
    constructor
    · exact Or.inl
    · rintro (hx | rfl)
      · exact hx
      · exact h
  · rw [if_neg h]
    simp

lemma mem_unionStr (x : String) (xs news : List String) :
    x ∈ unionStr xs news ↔ x ∈ xs ∨ x ∈ news := by
  induction news generalizing xs with
  | nil => simp [unionStr]
  | cons n ns ih =>
    have hstep : unionStr xs (n :: ns) = unionStr (addElem n xs) ns := rfl
    rw [hstep, ih, mem_addElem]
    simp [or_assoc]

lemma insertAcc_nil (key : List Char) (b : String) (cv mt : List String) :
    insertAcc key b cv mt [] = [(key, Acc.update b cv mt Acc.empty)] :=
  rfl

lemma insertAcc_cons_self (key : List Char) (b : String) (cv mt : List String)
    (a0 : Acc) (rest : List (List Char × Acc)) :
    insertAcc key b cv mt ((key, a0) :: rest) =
      (key, Acc.update b cv mt a0) :: rest := by
  simp [insertAcc]

lemma insertAcc_cons_lt {key k0 : List Char} (b : String) (cv mt : List String)
    (a0 : Acc) (rest : List (List Char × Acc)) (h : key < k0) :
    insertAcc key b cv mt ((k0, a0) :: rest) =
      (key, Acc.update b cv mt Acc.empty) :: (k0, a0) :: rest := by
  simp [insertAcc, ne_of_lt h, h]

lemma insertAcc_cons_gt {key k0 : List Char} (b : String) (cv mt : List String)
    (a0 : Acc) (rest : List (List Char × Acc)) (h : k0 < key) :
    insertAcc key b cv mt ((k0, a0) :: rest) =
      (k0, a0) :: insertAcc key b cv mt rest := by
  simp [insertAcc, ne_of_gt h, lt_asymm h]

lemma insertAcc_keys (key : List Char) (b : String) (cv mt : List String)
    (m : List (List Char × Acc)) (k : List Char) :
    k ∈ (insertAcc key b cv mt m).map Prod.fst ↔
      k = key ∨ k ∈ m.map Prod.fst := by
  induction m with
  | nil => simp [insertAcc_nil]
  | cons ka rest ih =>
    obtain ⟨k0, a0⟩ := ka
    rcases lt_trichotomy key k0 with h2 | h1 | h3
    · rw [insertAcc_cons_lt b cv mt a0 rest h2]
      simp only [List.map_cons, List.mem_cons]
    · subst h1
      rw [insertAcc_cons_self]
      simp only [List.map_cons, List.mem_cons]
      tauto
    · rw [insertAcc_cons_gt b cv mt a0 rest h3]
      simp only [List.map_cons, List.mem_cons]
      rw [ih]
      tauto

lemma insertAcc_sorted (key : List Char) (b : String) (cv mt : List String)
    (m : List (List Char × Acc))
    (hs : (m.map Prod.fst).Sorted (· < ·)) :
    ((insertAcc key b cv mt m).map Prod.fst).Sorted (· < ·) := by
  induction m with
  | nil => simp [insertAcc_nil]
  | cons ka rest ih =>
    obtain ⟨k0, a0⟩ := ka
    rw [List.map_cons, List.sorted_cons] at hs
    obtain ⟨hall, hrest⟩ := hs
    rcases lt_trichotomy key k0 with h2 | h1 | h3
    · rw [insertAcc_cons_lt b cv mt a0 rest h2]
      rw [List.map_cons, List.sorted_cons]
      refine ⟨?_, ?_⟩
      · intro x hx
        rw [List.map_cons, List.mem_cons] at hx
        rcases hx with rfl | hx
        · exact h2
        · exact lt_trans h2 (hall x hx)
      · rw [List.map_cons, List.sorted_cons]
        exact ⟨hall, hrest⟩
    · subst h1
      rw [insertAcc_cons_self]
      rw [List.map_cons, List.sorted_cons]
      exact ⟨hall, hrest⟩
    · rw [insertAcc_cons_gt b cv mt a0 rest h3]
      rw [List.map_cons, List.sorted_cons]
      refine ⟨?_, ih hrest⟩
      intro x hx
      rcases (insertAcc_keys key b cv mt rest x).mp hx with rfl | hx
      · exact h3
      · exact hall x hx

lemma insertAcc_mem (key : List Char) (b : String) (cv mt : List String) :
    ∀ (m : List (List Char × Acc)),
      (m.map Prod.fst).Sorted (· < ·) →
      ∀ ka : List Char × Acc,
        ka ∈ insertAcc key b cv mt m ↔
          ((ka ∈ m ∧ ka.1 ≠ key) ∨
           (∃ a0, (key, a0) ∈ m ∧ ka = (key, Acc.update b cv mt a0)) ∨
           (key ∉ m.map Prod.fst ∧ ka = (key, Acc.update b cv mt Acc.empty))) := by
  intro m
  induction m with
  | nil =>
    intro _ ka
    simp [insertAcc_nil]
  | cons h0 rest ih =>
    intro hs ka
    obtain ⟨k0, a0⟩ := h0
    rw [List.map_cons, List.sorted_cons] at hs
    obtain ⟨hall, hrest⟩ := hs
    rcases lt_trichotomy key k0 with hlt | heq | hgt
    · have hkeyfresh : key ∉ (((k0, a0) :: rest).map Prod.fst) := by
        rw [List.map_cons]
        intro hmem
        rcases List.mem_cons.mp hmem with heq | hmem
        · exact absurd heq (ne_of_lt hlt)
        · exact absurd (hall key hmem) (lt_asymm hlt)
      rw [insertAcc_cons_lt b cv mt a0 rest hlt]
      constructor
      · intro hmem
        rcases List.mem_cons.mp hmem with rfl | hmem
        · exact Or.inr (Or.inr ⟨hkeyfresh, rfl⟩)
        · have hne : ka.1 ≠ key := by
            intro hh
            apply hkeyfresh
            rw [← hh]
            exact List.mem_map_of_mem Prod.fst hmem
          exact Or.inl ⟨hmem, hne⟩
      · rintro (⟨hmem, hne⟩ | ⟨a1, hmem, rfl⟩ | ⟨_, rfl⟩)
        · exact List.mem_cons_of_mem _ hmem
        · exact absurd (List.mem_map_of_mem Prod.fst hmem) hkeyfresh
        · exact List.mem_cons_self _ _
    · subst heq
      rw [insertAcc_cons_self]
      have hknotin : key ∉ rest.map Prod.fst :=
        fun hmem => lt_irrefl key (hall key hmem)
      constructor
      · intro hmem
        rcases List.mem_cons.mp hmem with rfl | hmem
        · exact Or.inr (Or.inl ⟨a0, List.mem_cons_self _ _, rfl⟩)
        · have hne : ka.1 ≠ key := by
            intro hh
            apply hknotin
            rw [← hh]
            exact List.mem_map_of_mem Prod.fst hmem
          exact Or.inl ⟨List.mem_cons_of_mem _ hmem, hne⟩
      · rintro (⟨hmem, hne⟩ | ⟨a1, hmem, rfl⟩ | ⟨habs, _⟩)
        · rcases List.mem_cons.mp hmem with rfl | hmem
          · exact absurd rfl hne
          · exact List.mem_cons_of_mem _ hmem
        · rcases List.mem_cons.mp hmem with heq2 | hmem
          · injection heq2 with _ h2
            subst h2
            exact List.mem_cons_self _ _
          · exact absurd (List.mem_map_of_mem Prod.fst hmem) hknotin
        · exact absurd (by rw [List.map_cons]; exact List.mem_cons_self key _) habs
    · have hk0ne : k0 ≠ key := ne_of_lt hgt
      rw [insertAcc_cons_gt b cv mt a0 rest hgt]
      constructor
      · intro hmem
        rcases List.mem_cons.mp hmem with rfl | hmem
        · exact Or.inl ⟨List.mem_cons_self _ _, hk0ne⟩
        · rcases (ih hrest ka).mp hmem with ⟨hm, hne⟩ | ⟨a1, hm, hka⟩ | ⟨hfresh, hka⟩
          · exact Or.inl ⟨List.mem_cons_of_mem _ hm, hne⟩
          · exact Or.inr (Or.inl ⟨a1, List.mem_cons_of_mem _ hm, hka⟩)
          · refine Or.inr (Or.inr ⟨?_, hka⟩)
            rw [List.map_cons]
            intro hmem2
            rcases List.mem_cons.mp hmem2 with heq2 | hmem2
            · exact hk0ne heq2.symm
            · exact hfresh hmem2
      · rintro (⟨hm, hne⟩ | ⟨a1, hm, hka⟩ | ⟨hfresh, hka⟩)
        · rcases List.mem_cons.mp hm with rfl | hm
          · exact List.mem_cons_self _ _
          · exact List.mem_cons_of_mem _ ((ih hrest ka).mpr (Or.inl ⟨hm, hne⟩))
        · rcases List.mem_cons.mp hm with heq2 | hm
          · injection heq2 with h1 _
            exact absurd h1.symm hk0ne
          · exact List.mem_cons_of_mem _
              ((ih hrest ka).mpr (Or.inr (Or.inl ⟨a1, hm, hka⟩)))
        · have hfresh2 : key ∉ rest.map Prod.fst := by
            intro hmem2
            apply hfresh
            rw [List.map_cons]
            exact List.mem_cons_of_mem _ hmem2
          exact List.mem_cons_of_mem _
            ((ih hrest ka).mpr (Or.inr (Or.inr ⟨hfresh2, hka⟩)))

lemma accOk_empty (maint : List (String × List (Package × List String)))
    (done : List (String × Finding)) (k : List Char)
    (hnone : ∀ bf ∈ done, bf.2.pkg.pname ≠ k) :
    AccOk maint done k Acc.empty := by
  refine ⟨?_, ?_, ?_⟩
  · intro b
    constructor
    · intro h
      exact absurd h (List.not_mem_nil b)
    · rintro ⟨f, hm, hp⟩
      exact absurd hp (hnone (b, f) hm)
  · intro c
    constructor
    · intro h
      exact absurd h (List.not_mem_nil c)
    · rintro ⟨bf, hm, hp, _⟩
      exact absurd hp (hnone bf hm)
  · intro x
    constructor
    · intro h
      exact absurd h (List.not_mem_nil x)
    · rintro ⟨bf, hm, hp, _⟩
      exact absurd hp (hnone bf hm)

lemma accOk_update (maint : List (String × List (Package × List String)))
    (done : List (String × Finding)) (k : List Char) (a : Acc)
    (b : String) (f : Finding)
    (ha : AccOk maint done k a) (hk : f.pkg.pname = k) :
    AccOk maint (done ++ [(b, f)]) k
      (Acc.update b f.cves (maintFor maint b f.pkg) a) := by
  obtain ⟨h1, h2, h3⟩ := ha
  refine ⟨?_, ?_, ?_⟩
  · intro x
    show x ∈ addElem b a.branches ↔ _
    rw [mem_addElem, h1 x]
    constructor
    · rintro (⟨f1, hm, hp⟩ | rfl)
      · exact ⟨f1, List.mem_append_left _ hm, hp⟩
      · exact ⟨f, List.mem_append_right _ (List.mem_singleton.mpr rfl), hk⟩
    · rintro ⟨f1, hm, hp⟩
      rcases List.mem_append.mp hm with hm | hm
      · exact Or.inl ⟨f1, hm, hp⟩
      · have := List.mem_singleton.mp hm
        injection this with hx _
        exact Or.inr hx
  · intro c
    show c ∈ unionStr a.cves f.cves ↔ _
    rw [mem_unionStr, h2 c]
    constructor
    · rintro (⟨bf, hm, hp, hc⟩ | hc)
      · exact ⟨bf, List.mem_append_left _ hm, hp, hc⟩
      · exact ⟨(b, f), List.mem_append_right _ (List.mem_singleton.mpr rfl), hk, hc⟩
    · rintro ⟨bf, hm, hp, hc⟩
      rcases List.mem_append.mp hm with hm | hm
      · exact Or.inl ⟨bf, hm, hp, hc⟩
      · have := List.mem_singleton.mp hm
        subst this
        exact Or.inr hc
  · intro x
    show x ∈ unionStr a.maints (maintFor maint b f.pkg) ↔ _
    rw [mem_unionStr, h3 x]
    constructor
    · rintro (⟨bf, hm, hp, hx⟩ | hx)
      · exact ⟨bf, List.mem_append_left _ hm, hp, hx⟩
      · exact ⟨(b, f), List.mem_append_right _ (List.mem_singleton.mpr rfl), hk, hx⟩
    · rintro ⟨bf, hm, hp, hx⟩
      rcases List.mem_append.mp hm with hm | hm
      · exact Or.inl ⟨bf, hm, hp, hx⟩
      · have := List.mem_singleton.mp hm
        subst this
        exact Or.inr hx

lemma accOk_untouched (maint : List (String × List (Package × List String)))
    (done : List (String × Finding)) (k : List Char) (a : Acc)
    (b : String) (f : Finding)
    (ha : AccOk maint done k a) (hk : f.pkg.pname ≠ k) :
    AccOk maint (done ++ [(b, f)]) k a := by
  obtain ⟨h1, h2, h3⟩ := ha
  refine ⟨?_, ?_, ?_⟩
  · intro x
    rw [h1 x]
    constructor
    · rintro ⟨f1, hm, hp⟩
      exact ⟨f1, List.mem_append_left _ hm, hp⟩
    · rintro ⟨f1, hm, hp⟩
      rcases List.mem_append.mp hm with hm | hm
      · exact ⟨f1, hm, hp⟩
      · have := List.mem_singleton.mp hm
        injection this with _ hf
        subst hf
        exact absurd hp hk
  · intro c
    rw [h2 c]
    constructor
    · rintro ⟨bf, hm, hp, hc⟩
      exact ⟨bf, List.mem_append_left _ hm, hp, hc⟩
    · rintro ⟨bf, hm, hp, hc⟩
      rcases List.mem_append.mp hm with hm | hm
      · exact ⟨bf, hm, hp, hc⟩
      · have := List.mem_singleton.mp hm
        subst this
        exact absurd hp hk
  · intro x
    rw [h3 x]
    constructor
    · rintro ⟨bf, hm, hp, hx⟩
      exact ⟨bf, List.mem_append_left _ hm, hp, hx⟩
    · rintro ⟨bf, hm, hp, hx⟩
      rcases List.mem_append.mp hm with hm | hm
      · exact ⟨bf, hm, hp, hx⟩
      · have := List.mem_singleton.mp hm
        subst this
        exact absurd hp hk

lemma mapOk_step (maint : List (String × List (Package × List String)))
    (done : List (String × Finding)) (m : List (List Char × Acc))
    (it : String × Finding) (h : MapOk maint done m) :
    MapOk maint (done ++ [it]) (synthStep maint m it) := by
  obtain ⟨hs, hkeys, hacc⟩ := h
  obtain ⟨b, f⟩ := it
  refine ⟨insertAcc_sorted _ _ _ _ m hs, ?_, ?_⟩
  · intro k
    rw [show synthStep maint m (b, f) =
        insertAcc f.pkg.pname b f.cves (maintFor maint b f.pkg) m from rfl]
    rw [insertAcc_keys, hkeys k]
    constructor
    · rintro (rfl | ⟨bf, hm, hp⟩)
      · exact ⟨(b, f), List.mem_append_right _ (List.mem_singleton.mpr rfl), rfl⟩
      · exact ⟨bf, List.mem_append_left _ hm, hp⟩
    · rintro ⟨bf, hm, hp⟩
      rcases List.mem_append.mp hm with hm | hm
      · exact Or.inr ⟨bf, hm, hp⟩
      · have := List.mem_singleton.mp hm
        subst this
        exact Or.inl hp.symm
  · intro ka hka
    rcases (insertAcc_mem f.pkg.pname b f.cves (maintFor maint b f.pkg) m hs ka).mp
        hka with ⟨hmem, hne⟩ | ⟨a0, hmem, rfl⟩ | ⟨hfresh, rfl⟩
    · exact accOk_untouched maint done ka.1 ka.2 b f (hacc ka hmem)
        (fun hh => hne hh.symm)
    · exact accOk_update maint done f.pkg.pname a0 b f
        (hacc (f.pkg.pname, a0) hmem) rfl
    · have hnone : ∀ bf ∈ done, bf.2.pkg.pname ≠ f.pkg.pname := by
        intro bf hm hp
        exact hfresh ((hkeys f.pkg.pname).mpr ⟨bf, hm, hp⟩)
      exact accOk_update maint done f.pkg.pname Acc.empty b f
        (accOk_empty maint done f.pkg.pname hnone) rfl

lemma mapOk_nil (maint : List (String × List (Package × List String))) :
    MapOk maint [] [] := by
  refine ⟨by simp, by simp, by simp⟩

lemma mapOk_foldl (maint : List (String × List (Package × List String))) :
    ∀ (its done : List (String × Finding)) (m : List (List Char × Acc)),
      MapOk maint done m →
      MapOk maint (done ++ its) (its.foldl (synthStep maint) m) := by
  intro its
  induction its with
  | nil =>
    intro done m h
    simpa using h
  | cons it rest ih =>
    intro done m h
    have h2 := ih (done ++ [it]) (synthStep maint m it) (mapOk_step maint done m it h)
    rw [List.append_assoc] at h2
    simpa using h2

lemma foldl_items (maint : List (String × List (Package × List String))) :
    ∀ (sec : List (String × List Finding)) (m0 : List (List Char × Acc)),
      sec.foldl (fun m bf => bf.2.foldl (fun m f =>
        insertAcc f.pkg.pname bf.1 f.cves (maintFor maint bf.1 f.pkg) m) m) m0 =
      (items sec).foldl (synthStep maint) m0 := by
  intro sec
  induction sec with
  | nil =>
    intro m0
    rfl
  | cons bf rest ih =>
    intro m0
    rw [List.foldl_cons]
    rw [show items (bf :: rest) =
        bf.2.map (fun f => (bf.1, f)) ++ items rest from rfl]
    rw [List.foldl_append, List.foldl_map]
    exact ih _

lemma ticket_list_eq (it : Nat) (sec : List (String × List Finding))
    (maint : List (String × List (Package × List String))) :
    ticket_list it sec maint =
      ((items sec).foldl (synthStep maint) []).map
        (fun ka => ⟨it, ka.1, ka.2.branches, ka.2.cves, ka.2.maints⟩) := by
  unfold ticket_list
  rw [foldl_items maint sec []]

lemma mem_items (sec : List (String × List Finding)) (b : String) (f : Finding) :
    (b, f) ∈ items sec ↔ ∃ bf ∈ sec, bf.1 = b ∧ f ∈ bf.2 := by
  unfold items
  rw [List.mem_flatMap]
  constructor
  · rintro ⟨bf, hbf, hmem⟩
    rw [List.mem_map] at hmem
    rcases hmem with ⟨f1, hf1, heq⟩
    injection heq with h1 h2
    subst h2
    exact ⟨bf, hbf, h1, hf1⟩
  · rintro ⟨bf, hbf, hb, hf⟩
    exact ⟨bf, hbf, List.mem_map.mpr ⟨f, hf, by rw [hb]⟩⟩

lemma exists_pair_items_iff (sec : List (String × List Finding))
    (P : String → Finding → Prop) :
    (∃ bf : String × Finding, bf ∈ items sec ∧ P bf.1 bf.2) ↔
      ∃ bf ∈ sec, ∃ f ∈ bf.2, P bf.1 f := by
  constructor
  · rintro ⟨⟨b, f⟩, hm, hp⟩
    rcases (mem_items sec b f).mp hm with ⟨bf, hbf, hb, hf⟩
    refine ⟨bf, hbf, f, hf, ?_⟩
    rw [hb]
    exact hp
  · rintro ⟨bf, hbf, f, hf, hp⟩
    exact ⟨(bf.1, f), (mem_items sec bf.1 f).mpr ⟨bf, hbf, rfl, hf⟩, hp⟩

lemma exists_branch_items_iff (sec : List (String × List Finding))
    (b : String) (Q : Finding → Prop) :
    (∃ f : Finding, (b, f) ∈ items sec ∧ Q f) ↔
      ∃ bf ∈ sec, bf.1 = b ∧ ∃ f ∈ bf.2, Q f := by
  constructor
  · rintro ⟨f, hm, hq⟩
    rcases (mem_items sec b f).mp hm with ⟨bf, hbf, hb, hf⟩
    exact ⟨bf, hbf, hb, f, hf, hq⟩
  · rintro ⟨bf, hbf, hb, f, hf, hq⟩
    exact ⟨f, (mem_items sec b f).mpr ⟨bf, hbf, hb, hf⟩, hq⟩

/-- C2: ticket synthesis emits a sequence of tickets whose base names are
strictly ascending (hence exactly one ticket per distinct base name), whose
base names are exactly the base names appearing in any branch findings, and
each ticket carries the iteration number together with the branch, CVE and
maintainer sets accumulated over all branches on which its base name
appears. -/
theorem c2_ticket_synthesis (it : Nat) (sec : List (String × List Finding))
    (maint : List (String × List (Package × List String))) :
    ((ticket_list it sec maint).map Ticket.pname).Sorted (· < ·) ∧
    (∀ k, k ∈ (ticket_list it sec maint).map Ticket.pname ↔
      ∃ bf ∈ sec, ∃ f ∈ bf.2, f.pkg.pname = k) ∧
    (∀ t ∈ ticket_list it sec maint,
      t.iteration = it ∧
      (∀ b, b ∈ t.branches ↔
        ∃ bf ∈ sec, bf.1 = b ∧ ∃ f ∈ bf.2, f.pkg.pname = t.pname) ∧
      (∀ c, c ∈ t.cves ↔
        ∃ bf ∈ sec, ∃ f ∈ bf.2, f.pkg.pname = t.pname ∧ c ∈ f.cves) ∧
      (∀ x, x ∈ t.maintainers ↔
        ∃ bf ∈ sec, ∃ f ∈ bf.2, f.pkg.pname = t.pname ∧
          x ∈ maintFor maint bf.1 f.pkg)) := by
  have hM := mapOk_foldl maint (items sec) [] [] (mapOk_nil maint)
  rw [List.nil_append] at hM
  obtain ⟨hs, hkeys, hacc⟩ := hM
  have hmap : (ticket_list it sec maint).map Ticket.pname =
      ((items sec).foldl (synthStep maint) []).map Prod.fst := by
    rw [ticket_list_eq, List.map_map]
    rfl
  refine ⟨?_, ?_, ?_⟩
  · rw [hmap]
    exact hs
  · intro k
    rw [hmap, hkeys k]
    exact exists_pair_items_iff sec (fun _ f => f.pkg.pname = k)
  · intro t ht
    rw [ticket_list_eq, List.mem_map] at ht
    rcases ht with ⟨ka, hka, rfl⟩
    obtain ⟨hb, hc, hx⟩ := hacc ka hka
    refine ⟨rfl, ?_, ?_, ?_⟩
    · intro b
      show b ∈ ka.2.branches ↔ _
      rw [hb b]
      exact exists_branch_items_iff sec b (fun f => f.pkg.pname = ka.1)
    · intro c
      show c ∈ ka.2.cves ↔ _
      rw [hc c]
      exact exists_pair_items_iff sec
        (fun _ f => f.pkg.pname = ka.1 ∧ c ∈ f.cves)
    · intro x
      show x ∈ ka.2.maints ↔ _
      rw [hx x]
      exact exists_pair_items_iff sec
        (fun br f => f.pkg.pname = ka.1 ∧ x ∈ maintFor maint br f.pkg)

/-- Witness for C2 at the end-to-end scenario of the spec: branch a reports
openssl-1.0.2d (CVE-1) and branch b reports openssl-1.0.2d (CVE-1) and
curl-7.60.0 (CVE-2); the openssl ticket of iteration 3 merges both
branches. -/
theorem c2_witness :
    (⟨3, "openssl".toList, ["a", "b"], ["CVE-1"], []⟩ : Ticket).iteration = 3 ∧
    ("a" ∈ (⟨3, "openssl".toList, ["a", "b"], ["CVE-1"], []⟩ : Ticket).branches ↔
      ∃ bf ∈ [("a", [(⟨Package.new "openssl".toList "1.0.2d".toList, ["CVE-1"]⟩ : Finding)]),
              ("b", [⟨Package.new "openssl".toList "1.0.2d".toList, ["CVE-1"]⟩,
                     ⟨Package.new "curl".toList "7.60.0".toList, ["CVE-2"]⟩])],
        bf.1 = "a" ∧ ∃ f ∈ bf.2, f.pkg.pname = "openssl".toList) := by
  have h := c2_ticket_synthesis 3
    [("a", [⟨Package.new "openssl".toList "1.0.2d".toList, ["CVE-1"]⟩]),
     ("b", [⟨Package.new "openssl".toList "1.0.2d".toList, ["CVE-1"]⟩,
            ⟨Package.new "curl".toList "7.60.0".toList, ["CVE-2"]⟩])] []
  have h3 := h.2.2 ⟨3, "openssl".toList, ["a", "b"], ["CVE-1"], []⟩ (by decide)
  exact ⟨h3.1, h3.2.1 "a"⟩

end Survey
